import Mathlib

/-!
Verification development for the Fern retained-mode widget framework.

The repository's `src/docs` tree holds two illustrative applications
(`basic_counter_example.cpp`, `complex_layout.cpp`); the layout-and-compositing
engine they exercise is not shipped under `src/`, so the engine itself is
modelled here from the specification (each such definition carries a
`Modelled from the spec:` doc comment).  The development embeds the geometry
primitives, the widget tree, the measure/arrange layout passes, the flex
distribution algorithm, the button interaction state machine with its
signal/slot mechanism, the widget tree manager, the construction factories,
and the pixel-buffer context, and proves the stated properties about them.
-/

namespace Fern

/-- 2D point, as in `Point(50, 50)` in the examples. -/
structure Point where
  x : Int
  y : Int
deriving Repr, DecidableEq

/-- Modelled from the spec: "Rect = origin + size; no invariant beyond
non-negative size (zero-size rects are valid)". -/
structure Rect where
  x : Int
  y : Int
  w : Int
  h : Int
deriving Repr, DecidableEq

/-- A measured size (the result of the measure pass). -/
structure Size where
  w : Int
  h : Int
deriving Repr, DecidableEq

/-- The zero rect: "stale Rects before first layout are the zero rect". -/
def zeroRect : Rect := ⟨0, 0, 0, 0⟩

/-- Modelled from the spec: main-axis alignment policy
`Start | End | Center | SpaceBetween | SpaceAround | SpaceEvenly`. -/
inductive MainAxisAlignment where
  | Start
  | End
  | Center
  | SpaceBetween
  | SpaceAround
  | SpaceEvenly
deriving Repr, DecidableEq

/-- Button configuration bundle
`{x,y,width,height,normalColor,hoverColor,pressColor,label,textScale,textColor}`
as used in `basic_counter_example.cpp`. -/
structure ButtonConfig where
  x : Int
  y : Int
  width : Int
  height : Int
  normalColor : Nat
  hoverColor : Nat
  pressColor : Nat
  label : String
  textScale : Int
  textColor : Nat
deriving Repr, DecidableEq

/-- Modelled from the spec: the closed set of layout-node variants
{Container, Row, Column, Padding, Center, SizedBox, Text, Button}.
Every widget stores its last-arranged `Rect` (`rect` field), the zero rect
before the first layout pass.  A Container or Padding child is optional
(missing required children degrade to zero size), Row/Column hold an ordered
child list, SizedBox is a rigid spacer whose zero declared dimension is the
expand sentinel inside a flex parent. -/
inductive Widget where
  | container (rect : Rect) (color : Nat) (declW declH : Int) (centered : Bool) (child : Option Widget)
  | row (rect : Rect) (align : MainAxisAlignment) (children : List Widget)
  | column (rect : Rect) (align : MainAxisAlignment) (children : List Widget)
  | padding (rect : Rect) (inset : Int) (child : Option Widget)
  | center (rect : Rect) (child : Option Widget)
  | sizedBox (rect : Rect) (declW declH : Int)
  | text (rect : Rect) (origin : Point) (content : String) (scale : Int) (color : Nat)
  | button (rect : Rect) (cfg : ButtonConfig)

/-- The constraint region a parent offers a child during measurement. -/
structure Constraints where
  maxW : Int
  maxH : Int
deriving Repr, DecidableEq

/-- Sum of widths of a list of measured sizes. -/
def sumW (ss : List Size) : Int := (ss.map Size.w).sum

/-- Sum of heights of a list of measured sizes. -/
def sumH (ss : List Size) : Int := (ss.map Size.h).sum

/-- Maximum width in a list of measured sizes (0 when empty). -/
def maxOfW (ss : List Size) : Int := (ss.map Size.w).foldr max 0

/-- Maximum height in a list of measured sizes (0 when empty). -/
def maxOfH (ss : List Size) : Int := (ss.map Size.h).foldr max 0

mutual

/-- Modelled from the spec: the `measure(constraints) -> Size` capability.
Intrinsic sizing: a SizedBox measures to its declared size, Text to glyph
metrics times scale, a Container to its fixed declared size if positive on an
axis else to its child's size, Row/Column to the sum of child main-axis
extents (expanding children measure to zero and hence contribute zero) and
the maximal cross extent, Padding to the child's size under an inset-reduced
constraint region plus the total inset; negative declared sizes and missing
required children degrade to zero size. -/
def measure : Widget → Constraints → Size
  | .container _ _ dw dh _ child, k =>
      ⟨if 0 < dw then dw else (measureO child k).w,
       if 0 < dh then dh else (measureO child k).h⟩
  | .row _ _ cs, k => ⟨sumW (measureL cs k), maxOfH (measureL cs k)⟩
  | .column _ _ cs, k => ⟨maxOfW (measureL cs k), sumH (measureL cs k)⟩
  | .padding _ _ none, _ => ⟨0, 0⟩
  | .padding _ inset (some c), k =>
      ⟨(measure c ⟨k.maxW - 2 * max 0 inset, k.maxH - 2 * max 0 inset⟩).w + 2 * max 0 inset,
       (measure c ⟨k.maxW - 2 * max 0 inset, k.maxH - 2 * max 0 inset⟩).h + 2 * max 0 inset⟩
  | .center _ child, k => measureO child k
  | .sizedBox _ dw dh, _ => ⟨max 0 dw, max 0 dh⟩
  | .text _ _ s scale _, _ => ⟨max 0 scale * 8 * (s.length : Int), max 0 scale * 8⟩
  | .button _ cfg, _ => ⟨max 0 cfg.width, max 0 cfg.height⟩

/-- Measure every widget of a list under the same constraints. -/
def measureL : List Widget → Constraints → List Size
  | [], _ => []
  | c :: cs, k => measure c k :: measureL cs k

/-- Measure an optional child; a missing child measures to zero size. -/
def measureO : Option Widget → Constraints → Size
  | none, _ => ⟨0, 0⟩
  | some c, k => measure c k

end

/-- Walk the measured main-axis extents; each expand-sentinel entry (extent 0)
is replaced by the per-child share `q`, the first one additionally receiving
the division remainder `r`; fixed entries are kept unchanged. -/
def assignExpand : List Int → Int → Int → List Int
  | [], _, _ => []
  | m :: ms, q, r =>
      if m = 0 then (q + r) :: assignExpand ms q 0 else m :: assignExpand ms q r

/-- Modelled from the spec: the flex arrange-pass distribution.  Given the
parent's resolved main extent `c` and the children's measured main extents
(zero meaning "expand"), compute `available = c - sum(fixed)` (clamped at 0
so that negative available space yields zero extents); each of the `n`
expanding children receives `available / n`, the first also the remainder. -/
def resolveExtents (c : Int) (ms : List Int) : List Int :=
  if ms.countP (fun m => m == 0) = 0 then ms
  else
    assignExpand ms (max 0 (c - ms.sum) / (ms.countP (fun m => m == 0) : Int))
      (max 0 (c - ms.sum) % (ms.countP (fun m => m == 0) : Int))

/-- Main-axis offsets of consecutive children: the first child sits at `acc`,
each next child at the previous offset plus the previous extent plus `gap`. -/
def positionsFrom (gap : Int) : Int → List Int → List Int
  | _, [] => []
  | acc, e :: es => acc :: positionsFrom gap (acc + e + gap) es

/-- Modelled from the spec: main-axis alignment offsets.  `Start` packs from
the leading edge, `End` from the trailing edge, `Center` centers the packed
block; `SpaceBetween` has zero outer gaps and equal inter-child gaps
(degenerating to `Start` with at most one child), `SpaceAround` half-gaps at
the ends, `SpaceEvenly` full gaps at the ends. -/
def mainPositions (al : MainAxisAlignment) (c : Int) (exts : List Int) : List Int :=
  match al with
  | .Start => positionsFrom 0 0 exts
  | .End => positionsFrom 0 (c - exts.sum) exts
  | .Center => positionsFrom 0 ((c - exts.sum) / 2) exts
  | .SpaceBetween =>
      if exts.length ≤ 1 then positionsFrom 0 0 exts
      else positionsFrom ((c - exts.sum) / ((exts.length : Int) - 1)) 0 exts
  | .SpaceAround =>
      positionsFrom ((c - exts.sum) / (exts.length : Int))
        ((c - exts.sum) / (exts.length : Int) / 2) exts
  | .SpaceEvenly =>
      positionsFrom ((c - exts.sum) / ((exts.length : Int) + 1))
        ((c - exts.sum) / ((exts.length : Int) + 1)) exts

/-- Cross-axis extent of a flex child: sized to the parent's cross extent
unless a smaller positive intrinsic cross size is declared (the zero sentinel
fills the cross axis). -/
def crossFor (parentCross m : Int) : Int :=
  if m = 0 then parentCross else min m parentCross

/-- Child rectangles of a Row: main axis horizontal, each child centered in
the cross axis. -/
def mkRowRects (r : Rect) : List Int → List Int → List Size → List Rect
  | x :: xs, e :: es, s :: ss =>
      ⟨r.x + x, r.y + (r.h - crossFor r.h s.h) / 2, e, crossFor r.h s.h⟩ ::
        mkRowRects r xs es ss
  | _, _, _ => []

/-- Child rectangles of a Column: main axis vertical, each child centered in
the cross axis. -/
def mkColRects (r : Rect) : List Int → List Int → List Size → List Rect
  | y :: ys, e :: es, s :: ss =>
      ⟨r.x + (r.w - crossFor r.w s.w) / 2, r.y + y, crossFor r.w s.w, e⟩ ::
        mkColRects r ys es ss
  | _, _, _ => []

/-- Resolved child rectangles of a Row node arranged into `r`. -/
def rowRects (al : MainAxisAlignment) (r : Rect) (ss : List Size) : List Rect :=
  mkRowRects r (mainPositions al r.w (resolveExtents r.w (ss.map Size.w)))
    (resolveExtents r.w (ss.map Size.w)) ss

/-- Resolved child rectangles of a Column node arranged into `r`. -/
def colRects (al : MainAxisAlignment) (r : Rect) (ss : List Size) : List Rect :=
  mkColRects r (mainPositions al r.h (resolveExtents r.h (ss.map Size.h)))
    (resolveExtents r.h (ss.map Size.h)) ss

/-- Rect of a child of measured size `m` centered inside `r`. -/
def centeredIn (r : Rect) (m : Size) : Rect :=
  ⟨r.x + (r.w - m.w) / 2, r.y + (r.h - m.h) / 2, m.w, m.h⟩

/-- Rect a Container hands its child: the full container rect, or the child's
measured size centered when the container's alignment delegate centers. -/
def containerChildRect (centered : Bool) (r : Rect) (m : Size) : Rect :=
  if centered then centeredIn r m else r

/-- Rect a Padding node hands its child: offset by the inset on both axes,
the region shrunk by the total inset (clamped at zero size). -/
def padRect (inset : Int) (r : Rect) : Rect :=
  ⟨r.x + max 0 inset, r.y + max 0 inset,
   max 0 (r.w - 2 * max 0 inset), max 0 (r.h - 2 * max 0 inset)⟩

mutual

/-- Modelled from the spec: the `arrange(rect)` capability.  Assigns the
node's final on-screen rectangle (stored in its `rect` field) and recursively
arranges children within it: a Container arranges its child inside the full
container rect (or centered per its delegate), Row/Column run the flex
distribution of spec §4.2 and the main-axis alignment policy, Padding insets
the child's region, Center centers the child's measured size, leaves only
record their rect. -/
def arrange : Widget → Rect → Widget
  | .container _ color dw dh centered child, r =>
      .container r color dw dh centered
        (arrangeO child (containerChildRect centered r (measureO child ⟨r.w, r.h⟩)))
  | .row _ al cs, r => .row r al (arrangeL cs (rowRects al r (measureL cs ⟨r.w, r.h⟩)))
  | .column _ al cs, r => .column r al (arrangeL cs (colRects al r (measureL cs ⟨r.w, r.h⟩)))
  | .padding _ inset child, r => .padding r inset (arrangeO child (padRect inset r))
  | .center _ child, r =>
      .center r (arrangeO child (centeredIn r (measureO child ⟨r.w, r.h⟩)))
  | .sizedBox _ dw dh, r => .sizedBox r dw dh
  | .text _ o s scale color, r => .text r o s scale color
  | .button _ cfg, r => .button r cfg

/-- Arrange a list of children into their respective rectangles (a missing
rectangle degrades to the zero rect). -/
def arrangeL : List Widget → List Rect → List Widget
  | [], _ => []
  | c :: cs, [] => arrange c zeroRect :: arrangeL cs []
  | c :: cs, r :: rs => arrange c r :: arrangeL cs rs

/-- Arrange an optional child. -/
def arrangeO : Option Widget → Rect → Option Widget
  | none, _ => none
  | some c, r => some (arrange c r)

end

/-- The last-arranged rectangle stored in a widget. -/
def rectOf : Widget → Rect
  | .container r _ _ _ _ _ => r
  | .row r _ _ => r
  | .column r _ _ => r
  | .padding r _ _ => r
  | .center r _ => r
  | .sizedBox r _ _ => r
  | .text r _ _ _ _ => r
  | .button r _ => r

/-- The stored rectangles of a widget's immediate children. -/
def childRects : Widget → List Rect
  | .container _ _ _ _ _ none => []
  | .container _ _ _ _ _ (some c) => [rectOf c]
  | .row _ _ cs => cs.map rectOf
  | .column _ _ cs => cs.map rectOf
  | .padding _ _ none => []
  | .padding _ _ (some c) => [rectOf c]
  | .center _ none => []
  | .center _ (some c) => [rectOf c]
  | .sizedBox _ _ _ => []
  | .text _ _ _ _ _ => []
  | .button _ _ => []

/-- Arranged widths of a widget's immediate children. -/
def childWidths (w : Widget) : List Int := (childRects w).map Rect.w

/-- Arranged heights of a widget's immediate children. -/
def childHeights (w : Widget) : List Int := (childRects w).map Rect.h

/-- Measured main-axis extents of a child list for a Row parent. -/
def mainExtentsW (cs : List Widget) (k : Constraints) : List Int :=
  (measureL cs k).map Size.w

/-- Measured main-axis extents of a child list for a Column parent. -/
def mainExtentsH (cs : List Widget) (k : Constraints) : List Int :=
  (measureL cs k).map Size.h

/-- Number of expand-sentinel (zero) entries among measured main extents. -/
def expandCount (ms : List Int) : Nat := ms.countP (fun m => m == 0)

mutual

/-- Every stored rectangle in the tree has non-negative width and height. -/
def sizesOk : Widget → Bool
  | .container r _ _ _ _ child => decide (0 ≤ r.w) && decide (0 ≤ r.h) && sizesOkO child
  | .row r _ cs => decide (0 ≤ r.w) && decide (0 ≤ r.h) && sizesOkL cs
  | .column r _ cs => decide (0 ≤ r.w) && decide (0 ≤ r.h) && sizesOkL cs
  | .padding r _ child => decide (0 ≤ r.w) && decide (0 ≤ r.h) && sizesOkO child
  | .center r child => decide (0 ≤ r.w) && decide (0 ≤ r.h) && sizesOkO child
  | .sizedBox r _ _ => decide (0 ≤ r.w) && decide (0 ≤ r.h)
  | .text r _ _ _ _ => decide (0 ≤ r.w) && decide (0 ≤ r.h)
  | .button r _ => decide (0 ≤ r.w) && decide (0 ≤ r.h)

/-- `sizesOk` over a list of widgets. -/
def sizesOkL : List Widget → Bool
  | [] => true
  | c :: cs => sizesOk c && sizesOkL cs

/-- `sizesOk` over an optional widget. -/
def sizesOkO : Option Widget → Bool
  | none => true
  | some c => sizesOk c

end

mutual

/-- Preorder traversal of a widget subtree: the node itself followed by all
of its descendants (the set of nodes a render or hit-test traversal of that
subtree visits). -/
def subnodes : Widget → List Widget
  | .container r c dw dh ctr child => .container r c dw dh ctr child :: subnodesO child
  | .row r al cs => .row r al cs :: subnodesL cs
  | .column r al cs => .column r al cs :: subnodesL cs
  | .padding r i child => .padding r i child :: subnodesO child
  | .center r child => .center r child :: subnodesO child
  | .sizedBox r dw dh => [.sizedBox r dw dh]
  | .text r o s sc col => [.text r o s sc col]
  | .button r cfg => [.button r cfg]

/-- Subtree traversal of a widget list, in list order. -/
def subnodesL : List Widget → List Widget
  | [] => []
  | c :: cs => subnodes c ++ subnodesL cs

/-- Subtree traversal of an optional widget. -/
def subnodesO : Option Widget → List Widget
  | none => []
  | some c => subnodes c

end

/-- Modelled from the spec: the widget tree manager, a singleton "holding an
ordered sequence of root widgets for the current frame". -/
structure WidgetManager where
  roots : List Widget

/-- `clear()` discards all previous roots (and their owned subtrees). -/
def WidgetManager.clear (_m : WidgetManager) : WidgetManager := ⟨[]⟩

/-- `addWidget(root)` appends to the root list, preserving insertion order. -/
def addWidget (m : WidgetManager) (w : Widget) : WidgetManager := ⟨m.roots ++ [w]⟩

/-- Add a list of roots, one `addWidget` call per root. -/
def addAll (m : WidgetManager) (ws : List Widget) : WidgetManager :=
  ws.foldl addWidget m

/-- The nodes visited by the render traversal: every root's subtree, roots in
insertion order (painter's algorithm). -/
def renderOrder (m : WidgetManager) : List Widget := (m.roots.map subnodes).flatten

/-- The nodes visited by hit-testing: same nodes, topmost (last-added,
last-painted) first. -/
def hitOrder (m : WidgetManager) : List Widget := (renderOrder m).reverse

/-- A widget is reachable iff some render (equivalently hit-test) traversal
of the manager's forest visits it. -/
def reachable (m : WidgetManager) (v : Widget) : Prop := v ∈ renderOrder m

/-- Modelled from the spec: interaction state of a button,
`{Normal, Hovered, Pressed}`. -/
inductive ButtonState where
  | Normal
  | Hovered
  | Pressed
deriving Repr, DecidableEq

/-- One per-frame input sample: pointer-inside-bounds and primary-button-down. -/
structure InputSample where
  inside : Bool
  down : Bool
deriving Repr, DecidableEq

/-- Modelled from the spec: the transition table of §4.4, driven once per
frame.  Pointer inside with button down goes to Pressed, inside with button
up goes to Hovered, outside goes to Normal (from every state). -/
def stepState (_s : ButtonState) (x : InputSample) : ButtonState :=
  if x.inside then if x.down then .Pressed else .Hovered else .Normal

/-- The click signal fires on this frame iff the current state is Pressed and
the sample has the pointer inside with the button up (the Pressed→Hovered
transition). -/
def firesOn (s : ButtonState) (x : InputSample) : Bool :=
  s == .Pressed && x.inside && !x.down

/-- State of the machine before processing sample `i`, starting from Normal. -/
def stateAt (xs : List InputSample) (i : Nat) : ButtonState :=
  (xs.take i).foldl stepState .Normal

/-- Whether the click signal fires while processing sample `i` (synchronously,
at that step). -/
def fireAt (xs : List InputSample) (i : Nat) : Bool :=
  decide (i < xs.length) && firesOn (stateAt xs i) (xs.getD i ⟨false, false⟩)

/-- Modelled from the spec: a signal is "an explicit list of registered
callback handles per interactive widget, invoked in registration order". -/
structure Signal (α : Type) where
  callbacks : List α

/-- `connect` appends a callback subscription. -/
def Signal.connect {α : Type} (s : Signal α) (cb : α) : Signal α :=
  ⟨s.callbacks ++ [cb]⟩

/-- One trigger of the signal: the sequence of callback invocations it
performs, in order. -/
def Signal.emit {α : Type} (s : Signal α) : List α := s.callbacks

/-- A button composite: configuration, interaction state, click signal
(callbacks identified by handles). -/
structure Button where
  cfg : ButtonConfig
  state : ButtonState
  onClick : Signal Nat

/-- `button->onClick.connect(cb)` as in the counter example. -/
def Button.connect (b : Button) (cb : Nat) : Button :=
  ⟨b.cfg, b.state, b.onClick.connect cb⟩

/-- Connect a list of callbacks, in order. -/
def connectAll (b : Button) (cbs : List Nat) : Button :=
  cbs.foldl Button.connect b

/-- The invocation sequence of one trigger of the button's click signal. -/
def Button.trigger (b : Button) : List Nat := b.onClick.emit

/-- Register the freshly constructed widget with the manager iff the factory's
trailing registration flag is set. -/
def registerW (m : WidgetManager) (w : Widget) (reg : Bool) : WidgetManager :=
  if reg then addWidget m w else m

/-- Modelled from the spec: the `Text` factory (origin point, content, scale,
color, trailing registration flag defaulting to true). -/
def Text (m : WidgetManager) (p : Point) (s : String) (scale : Int) (color : Nat)
    (reg : Bool) : WidgetManager × Widget :=
  (registerW m (Widget.text zeroRect p s scale color) reg,
   Widget.text zeroRect p s scale color)

/-- Modelled from the spec: the `Button` factory (configuration bundle,
trailing registration flag defaulting to true). -/
def ButtonW (m : WidgetManager) (cfg : ButtonConfig) (reg : Bool) :
    WidgetManager × Widget :=
  (registerW m (Widget.button zeroRect cfg) reg, Widget.button zeroRect cfg)

/-- Modelled from the spec: the `Container` factory (color, position, declared
size, optional child, trailing registration flag defaulting to true). -/
def Container (m : WidgetManager) (color : Nat) (x y w h : Int)
    (child : Option Widget) (reg : Bool) : WidgetManager × Widget :=
  (registerW m (Widget.container ⟨x, y, w, h⟩ color w h false child) reg,
   Widget.container ⟨x, y, w, h⟩ color w h false child)

/-- Modelled from the spec: the `Row` factory (children, trailing registration
flag defaulting to true, main-axis alignment defaulting to Start). -/
def Row (m : WidgetManager) (cs : List Widget) (reg : Bool)
    (al : MainAxisAlignment) : WidgetManager × Widget :=
  (registerW m (Widget.row zeroRect al cs) reg, Widget.row zeroRect al cs)

/-- Modelled from the spec: the `Column` factory. -/
def Column (m : WidgetManager) (cs : List Widget) (reg : Bool)
    (al : MainAxisAlignment) : WidgetManager × Widget :=
  (registerW m (Widget.column zeroRect al cs) reg, Widget.column zeroRect al cs)

/-- Modelled from the spec: the `Padding` factory (child, inset, trailing
registration flag defaulting to true). -/
def Padding (m : WidgetManager) (child : Widget) (inset : Int) (reg : Bool) :
    WidgetManager × Widget :=
  (registerW m (Widget.padding zeroRect inset (some child)) reg,
   Widget.padding zeroRect inset (some child))

/-- Modelled from the spec: the `Center` factory (child, trailing registration
flag defaulting to true). -/
def Center (m : WidgetManager) (child : Widget) (reg : Bool) :
    WidgetManager × Widget :=
  (registerW m (Widget.center zeroRect (some child)) reg,
   Widget.center zeroRect (some child))

/-- Modelled from the spec: the `SizedBox` factory (declared width/height,
trailing registration flag defaulting to true). -/
def SizedBox (m : WidgetManager) (w h : Int) (reg : Bool) :
    WidgetManager × Widget :=
  (registerW m (Widget.sizedBox zeroRect w h) reg, Widget.sizedBox zeroRect w h)

/-- Modelled from the spec: the engine context established by
`Fern::initialize` — the caller-owned pixel buffer and its dimensions. -/
structure FernContext where
  width : Nat
  height : Nat
  buffer : List Nat

/-- `Fern::initialize(buffer, w, h)`: adopt the caller-owned buffer of
`w*h` pixels. -/
def initializeWith (buf : List Nat) (w h : Nat) : FernContext := ⟨w, h, buf⟩

/-- Modelled from the spec: the zero-argument `Fern::initialize()` overload;
the platform chooses the dimensions and the engine allocates the buffer. -/
def initializeAuto (platformW platformH : Nat) : FernContext :=
  ⟨platformW, platformH, List.replicate (platformW * platformH) 0⟩

/-- `Fern::getWidth()`. -/
def getWidth (c : FernContext) : Nat := c.width

/-- `Fern::getHeight()`. -/
def getHeight (c : FernContext) : Nat := c.height

/-- Write one pixel, clipped against the buffer bounds. -/
def setPixel (c : FernContext) (x y : Nat) (color : Nat) : FernContext :=
  if x < c.width ∧ y < c.height then
    ⟨c.width, c.height, c.buffer.set (y * c.width + x) color⟩
  else c

/-- Whether buffer coordinate `(x, y)` lies inside rect `r`. -/
def coordIn (r : Rect) (x y : Nat) : Bool :=
  decide (r.x ≤ (x : Int) ∧ (x : Int) < r.x + r.w ∧
          r.y ≤ (y : Int) ∧ (y : Int) < r.y + r.h)

/-- Rasterizer adapter `fillRect(rect, color)`: writes the rect's pixels into
the buffer, clipping safely against the buffer bounds. -/
def fillRect (c : FernContext) (r : Rect) (color : Nat) : FernContext :=
  (List.range c.height).foldl (fun acc y =>
    (List.range c.width).foldl (fun acc2 x =>
      if coordIn r x y then setPixel acc2 x y color else acc2) acc) c

mutual

/-- Modelled from the spec: the `render()` capability — paint using only the
previously arranged geometry, through the rasterizer adapter, into the shared
pixel buffer.  Containers paint their background rect then their child, Text
and Button paint within their arranged rect, spacers paint nothing. -/
def render : FernContext → Widget → FernContext
  | ctx, .container r color _ _ _ child => renderO (fillRect ctx r color) child
  | ctx, .row _ _ cs => renderL ctx cs
  | ctx, .column _ _ cs => renderL ctx cs
  | ctx, .padding _ _ child => renderO ctx child
  | ctx, .center _ child => renderO ctx child
  | ctx, .sizedBox _ _ _ => ctx
  | ctx, .text r _ _ _ color => fillRect ctx r color
  | ctx, .button r cfg => fillRect ctx r cfg.normalColor

/-- Render a list of widgets left to right (painter's algorithm). -/
def renderL : FernContext → List Widget → FernContext
  | ctx, [] => ctx
  | ctx, c :: cs => renderL (render ctx c) cs

/-- Render an optional child. -/
def renderO : FernContext → Option Widget → FernContext
  | ctx, none => ctx
  | ctx, some c => render ctx c

end

/-- One render pass: render every root in insertion order. -/
def renderRoots (ctx : FernContext) (m : WidgetManager) : FernContext :=
  m.roots.foldl render ctx

theorem maxOf_nonneg (l : List Int) : 0 ≤ l.foldr max 0 := by
  induction l with
  | nil => simp
  | cons a l ih => exact le_trans ih (le_max_right a _)

mutual

theorem measure_nn (w : Widget) (k : Constraints) :
    0 ≤ (measure w k).w ∧ 0 ≤ (measure w k).h := by
  cases w with
  | container rect color dw dh c child =>
      have h := measureO_nn child k
      simp only [measure]
      exact ⟨by split <;> omega, by split <;> omega⟩
  | row rect al cs =>
      have h := measureL_nn cs k
      simp only [measure]
      refine ⟨List.sum_nonneg ?_, maxOf_nonneg _⟩
      intro x hx
      rcases List.mem_map.mp hx with ⟨s, hs, rfl⟩
      exact (h s hs).1
  | column rect al cs =>
      have h := measureL_nn cs k
      simp only [measure]
      refine ⟨maxOf_nonneg _, List.sum_nonneg ?_⟩
      intro x hx
      rcases List.mem_map.mp hx with ⟨s, hs, rfl⟩
      exact (h s hs).2
  | padding rect inset child =>
      cases child with
      | none => simp [measure]
      | some c =>
          have h := measure_nn c ⟨k.maxW - 2 * max 0 inset, k.maxH - 2 * max 0 inset⟩
          simp only [measure]
          constructor
          · have : (0 : Int) ≤ max 0 inset := le_max_left 0 inset
            omega
          · have : (0 : Int) ≤ max 0 inset := le_max_left 0 inset
            omega
  | center rect child => exact measureO_nn child k
  | sizedBox rect dw dh => simp [measure]
  | text rect o s scale color =>
      simp only [measure]
      constructor
      · exact mul_nonneg (by positivity) (by positivity)
      · positivity
  | button rect cfg => simp [measure]

theorem measureL_nn (cs : List Widget) (k : Constraints) :
    ∀ s ∈ measureL cs k, 0 ≤ s.w ∧ 0 ≤ s.h := by
  match cs with
  | [] => intro s hs; simp [measureL] at hs
  | c :: cs =>
      intro s hs
      simp only [measureL, List.mem_cons] at hs
      rcases hs with h | h
      · subst h; exact measure_nn c k
      · exact measureL_nn cs k s h

theorem measureO_nn (c : Option Widget) (k : Constraints) :
    0 ≤ (measureO c k).w ∧ 0 ≤ (measureO c k).h := by
  cases c with
  | none => simp [measureO]
  | some c => exact measure_nn c k

end

theorem assignExpand_length (ms : List Int) (q r : Int) :
    (assignExpand ms q r).length = ms.length := by
  induction ms generalizing r with
  | nil => rfl
  | cons m ms ih => simp only [assignExpand]; split <;> simp [ih]

theorem assignExpand_sum (ms : List Int) (q r : Int) :
    (assignExpand ms q r).sum =
      ms.sum + q * (ms.countP (fun m => m == 0) : Int) +
        (if ms.countP (fun m => m == 0) = 0 then 0 else r) := by
  induction ms generalizing r with
  | nil => simp [assignExpand]
  | cons m ms ih =>
      simp only [assignExpand, List.sum_cons, List.countP_cons]
      by_cases hm : m = 0
      · simp only [hm, if_pos rfl, beq_self_eq_true, if_true, List.sum_cons]
        rw [ih]
        by_cases hc : ms.countP (fun m => m == 0) = 0 <;> simp [hc] <;> ring
      · have : (m == (0 : Int)) = false := by simpa using hm
        simp only [if_neg hm, this, List.sum_cons, cond_false, Bool.false_eq_true, if_false,
          Nat.add_zero]
        rw [ih]
        by_cases hc : ms.countP (fun m => m == 0) = 0 <;> simp [hc] <;> ring

theorem assignExpand_fixed (ms : List Int) (q r : Int) (i : Nat) (hi : i < ms.length)
    (hz : ms.getD i 1 ≠ 0) : (assignExpand ms q r).getD i 0 = ms.getD i 1 := by
  induction ms generalizing r i with
  | nil => simp at hi
  | cons m ms ih =>
      cases i with
      | zero =>
          simp only [List.getD_cons_zero] at hz ⊢
          simp only [assignExpand, if_neg hz, List.getD_cons_zero]
      | succ i =>
          simp only [List.getD_cons_succ] at hz ⊢
          have hi' : i < ms.length := by simpa using hi
          simp only [assignExpand]
          split <;> simpa using ih _ i hi' hz

theorem assignExpand_expand (ms : List Int) (q r : Int) (i : Nat) (hi : i < ms.length)
    (hz : ms.getD i 1 = 0) :
    (assignExpand ms q r).getD i 0 =
      q + (if (ms.take i).countP (fun m => m == 0) = 0 then r else 0) := by
  induction ms generalizing r i with
  | nil => simp at hi
  | cons m ms ih =>
      cases i with
      | zero =>
          simp only [List.getD_cons_zero] at hz
          simp [assignExpand, hz]
      | succ i =>
          simp only [List.getD_cons_succ] at hz
          have hi' : i < ms.length := by simpa using hi
          by_cases hm : m = 0
          · have : (m == (0 : Int)) = true := by simpa using hm
            simp only [assignExpand, if_pos hm, List.getD_cons_succ, List.take_succ_cons,
              List.countP_cons, this]
            rw [ih 0 i hi' hz]
            split <;> split <;> simp_all
          · have hmb : (m == (0 : Int)) = false := by simpa using hm
            simp only [assignExpand, if_neg hm, List.getD_cons_succ, List.take_succ_cons,
              List.countP_cons, hmb]
            rw [ih r i hi' hz]
            simp

theorem measureL_length (cs : List Widget) (k : Constraints) :
    (measureL cs k).length = cs.length := by
  induction cs with
  | nil => rfl
  | cons c cs ih => simp [measureL, ih]

theorem resolveExtents_length (c : Int) (ms : List Int) :
    (resolveExtents c ms).length = ms.length := by
  simp only [resolveExtents]
  split
  · rfl
  · exact assignExpand_length _ _ _

theorem positionsFrom_length (gap acc : Int) (es : List Int) :
    (positionsFrom gap acc es).length = es.length := by
  induction es generalizing acc with
  | nil => rfl
  | cons e es ih => simp [positionsFrom, ih]

theorem mainPositions_length (al : MainAxisAlignment) (c : Int) (exts : List Int) :
    (mainPositions al c exts).length = exts.length := by
  cases al <;> simp only [mainPositions] <;>
    first
      | exact positionsFrom_length _ _ _
      | split <;> exact positionsFrom_length _ _ _

theorem rectOf_arrange (w : Widget) (r : Rect) : rectOf (arrange w r) = r := by
  cases w <;> rfl

theorem arrangeL_map_rectOf (cs : List Widget) (rs : List Rect)
    (hl : rs.length = cs.length) : (arrangeL cs rs).map rectOf = rs := by
  induction cs generalizing rs with
  | nil => cases rs with
      | nil => rfl
      | cons r rs => simp at hl
  | cons c cs ih =>
      cases rs with
      | nil => simp at hl
      | cons r rs =>
          simp only [arrangeL, List.map_cons, rectOf_arrange]
          rw [ih rs (by simpa using hl)]

theorem mkRowRects_map_w (r : Rect) (xs es : List Int) (ss : List Size)
    (h1 : xs.length = es.length) (h2 : es.length = ss.length) :
    (mkRowRects r xs es ss).map Rect.w = es := by
  induction xs generalizing es ss with
  | nil =>
      cases es with
      | nil => rfl
      | cons e es => simp at h1
  | cons x xs ih =>
      cases es with
      | nil => simp at h1
      | cons e es =>
          cases ss with
          | nil => simp at h2
          | cons s ss =>
              simp only [mkRowRects, List.map_cons]
              rw [ih es ss (by simpa using h1) (by simpa using h2)]

theorem mkColRects_map_h (r : Rect) (ys es : List Int) (ss : List Size)
    (h1 : ys.length = es.length) (h2 : es.length = ss.length) :
    (mkColRects r ys es ss).map Rect.h = es := by
  induction ys generalizing es ss with
  | nil =>
      cases es with
      | nil => rfl
      | cons e es => simp at h1
  | cons y ys ih =>
      cases es with
      | nil => simp at h1
      | cons e es =>
          cases ss with
          | nil => simp at h2
          | cons s ss =>
              simp only [mkColRects, List.map_cons]
              rw [ih es ss (by simpa using h1) (by simpa using h2)]

theorem mkRowRects_length (r : Rect) (xs es : List Int) (ss : List Size)
    (h1 : xs.length = es.length) (h2 : es.length = ss.length) :
    (mkRowRects r xs es ss).length = es.length := by
  have := mkRowRects_map_w r xs es ss h1 h2
  calc (mkRowRects r xs es ss).length = ((mkRowRects r xs es ss).map Rect.w).length := by
        simp
    _ = es.length := by rw [this]

theorem mkColRects_length (r : Rect) (ys es : List Int) (ss : List Size)
    (h1 : ys.length = es.length) (h2 : es.length = ss.length) :
    (mkColRects r ys es ss).length = es.length := by
  have := mkColRects_map_h r ys es ss h1 h2
  calc (mkColRects r ys es ss).length = ((mkColRects r ys es ss).map Rect.h).length := by
        simp
    _ = es.length := by rw [this]

theorem rowRects_length (al : MainAxisAlignment) (r : Rect) (ss : List Size) :
    (rowRects al r ss).length = ss.length := by
  unfold rowRects
  rw [mkRowRects_length]
  · rw [resolveExtents_length]; simp
  · rw [mainPositions_length]
  · rw [resolveExtents_length]; simp

theorem colRects_length (al : MainAxisAlignment) (r : Rect) (ss : List Size) :
    (colRects al r ss).length = ss.length := by
  unfold colRects
  rw [mkColRects_length]
  · rw [resolveExtents_length]; simp
  · rw [mainPositions_length]
  · rw [resolveExtents_length]; simp

mutual

theorem measure_arrange (w : Widget) (r : Rect) (k : Constraints) :
    measure (arrange w r) k = measure w k := by
  cases w with
  | container r0 color dw dh ctr child =>
      simp only [arrange, measure]
      rw [measureO_arrangeO child (containerChildRect ctr r (measureO child ⟨r.w, r.h⟩)) k]
  | row r0 al cs =>
      simp only [arrange, measure]
      rw [measureL_arrangeL cs (rowRects al r (measureL cs ⟨r.w, r.h⟩)) k]
  | column r0 al cs =>
      simp only [arrange, measure]
      rw [measureL_arrangeL cs (colRects al r (measureL cs ⟨r.w, r.h⟩)) k]
  | padding r0 inset child =>
      cases child with
      | none => rfl
      | some c =>
          simp only [arrange, arrangeO, measure]
          rw [measure_arrange c (padRect inset r)
            ⟨k.maxW - 2 * max 0 inset, k.maxH - 2 * max 0 inset⟩]
  | center r0 child =>
      simp only [arrange, measure]
      rw [measureO_arrangeO child (centeredIn r (measureO child ⟨r.w, r.h⟩)) k]
  | sizedBox r0 dw dh => rfl
  | text r0 o s sc col => rfl
  | button r0 cfg => rfl

theorem measureL_arrangeL (cs : List Widget) (rs : List Rect) (k : Constraints) :
    measureL (arrangeL cs rs) k = measureL cs k := by
  match cs, rs with
  | [], _ => rfl
  | c :: cs, [] =>
      simp only [arrangeL, measureL]
      rw [measure_arrange c zeroRect k, measureL_arrangeL cs [] k]
  | c :: cs, r :: rs =>
      simp only [arrangeL, measureL]
      rw [measure_arrange c r k, measureL_arrangeL cs rs k]

theorem measureO_arrangeO (c : Option Widget) (r : Rect) (k : Constraints) :
    measureO (arrangeO c r) k = measureO c k := by
  cases c with
  | none => rfl
  | some c =>
      simp only [arrangeO, measureO]
      rw [measure_arrange c r k]

end

mutual

theorem arrange_arrange (w : Widget) (r : Rect) : arrange (arrange w r) r = arrange w r := by
  cases w with
  | container r0 color dw dh ctr child =>
      simp only [arrange]
      rw [measureO_arrangeO child (containerChildRect ctr r (measureO child ⟨r.w, r.h⟩))
          ⟨r.w, r.h⟩,
        arrangeO_arrangeO child (containerChildRect ctr r (measureO child ⟨r.w, r.h⟩))]
  | row r0 al cs =>
      simp only [arrange]
      rw [measureL_arrangeL cs (rowRects al r (measureL cs ⟨r.w, r.h⟩)) ⟨r.w, r.h⟩,
        arrangeL_arrangeL cs (rowRects al r (measureL cs ⟨r.w, r.h⟩))]
  | column r0 al cs =>
      simp only [arrange]
      rw [measureL_arrangeL cs (colRects al r (measureL cs ⟨r.w, r.h⟩)) ⟨r.w, r.h⟩,
        arrangeL_arrangeL cs (colRects al r (measureL cs ⟨r.w, r.h⟩))]
  | padding r0 inset child =>
      simp only [arrange]
      rw [arrangeO_arrangeO child (padRect inset r)]
  | center r0 child =>
      simp only [arrange]
      rw [measureO_arrangeO child (centeredIn r (measureO child ⟨r.w, r.h⟩)) ⟨r.w, r.h⟩,
        arrangeO_arrangeO child (centeredIn r (measureO child ⟨r.w, r.h⟩))]
  | sizedBox r0 dw dh => rfl
  | text r0 o s sc col => rfl
  | button r0 cfg => rfl

theorem arrangeL_arrangeL (cs : List Widget) (rs : List Rect) :
    arrangeL (arrangeL cs rs) rs = arrangeL cs rs := by
  match cs, rs with
  | [], _ => rfl
  | c :: cs, [] =>
      simp only [arrangeL]
      rw [arrange_arrange c zeroRect, arrangeL_arrangeL cs []]
  | c :: cs, r :: rs =>
      simp only [arrangeL]
      rw [arrange_arrange c r, arrangeL_arrangeL cs rs]

theorem arrangeO_arrangeO (c : Option Widget) (r : Rect) :
    arrangeO (arrangeO c r) r = arrangeO c r := by
  cases c with
  | none => rfl
  | some c =>
      simp only [arrangeO]
      rw [arrange_arrange c r]

end

theorem row_child_widths (r0 : Rect) (al : MainAxisAlignment) (cs : List Widget) (r : Rect) :
    childWidths (arrange (.row r0 al cs) r) =
      resolveExtents r.w (mainExtentsW cs ⟨r.w, r.h⟩) := by
  simp only [arrange, childWidths, childRects, List.map_map]
  have hmap : (arrangeL cs (rowRects al r (measureL cs ⟨r.w, r.h⟩))).map rectOf =
      rowRects al r (measureL cs ⟨r.w, r.h⟩) :=
    arrangeL_map_rectOf _ _ (by rw [rowRects_length, measureL_length])
  calc ((arrangeL cs (rowRects al r (measureL cs ⟨r.w, r.h⟩))).map (Rect.w ∘ rectOf))
      = ((arrangeL cs (rowRects al r (measureL cs ⟨r.w, r.h⟩))).map rectOf).map Rect.w := by
        rw [List.map_map]
    _ = (rowRects al r (measureL cs ⟨r.w, r.h⟩)).map Rect.w := by rw [hmap]
    _ = resolveExtents r.w (mainExtentsW cs ⟨r.w, r.h⟩) := by
        unfold rowRects mainExtentsW
        apply mkRowRects_map_w
        · rw [mainPositions_length]
        · rw [resolveExtents_length, List.length_map]

theorem col_child_heights (r0 : Rect) (al : MainAxisAlignment) (cs : List Widget) (r : Rect) :
    childHeights (arrange (.column r0 al cs) r) =
      resolveExtents r.h (mainExtentsH cs ⟨r.w, r.h⟩) := by
  simp only [arrange, childHeights, childRects, List.map_map]
  have hmap : (arrangeL cs (colRects al r (measureL cs ⟨r.w, r.h⟩))).map rectOf =
      colRects al r (measureL cs ⟨r.w, r.h⟩) :=
    arrangeL_map_rectOf _ _ (by rw [colRects_length, measureL_length])
  calc ((arrangeL cs (colRects al r (measureL cs ⟨r.w, r.h⟩))).map (Rect.h ∘ rectOf))
      = ((arrangeL cs (colRects al r (measureL cs ⟨r.w, r.h⟩))).map rectOf).map Rect.h := by
        rw [List.map_map]
    _ = (colRects al r (measureL cs ⟨r.w, r.h⟩)).map Rect.h := by rw [hmap]
    _ = resolveExtents r.h (mainExtentsH cs ⟨r.w, r.h⟩) := by
        unfold colRects mainExtentsH
        apply mkColRects_map_h
        · rw [mainPositions_length]
        · rw [resolveExtents_length, List.length_map]

theorem resolveExtents_spec (c : Int) (ms : List Int)
    (hN : 0 < expandCount ms) (hW : ms.sum ≤ c) :
    (∀ i, i < ms.length → ms.getD i 1 = 0 →
        (resolveExtents c ms).getD i 0 =
          (c - ms.sum) / (expandCount ms : Int) +
            (if (ms.take i).countP (fun m => m == 0) = 0
             then (c - ms.sum) % (expandCount ms : Int) else 0)) ∧
    (∀ i, i < ms.length → ms.getD i 1 ≠ 0 →
        (resolveExtents c ms).getD i 0 = ms.getD i 1) ∧
    (resolveExtents c ms).sum = c := by
  unfold expandCount at hN ⊢
  have hne : ms.countP (fun m => m == 0) ≠ 0 := by omega
  have hmax : max 0 (c - ms.sum) = c - ms.sum := max_eq_right (by omega)
  refine ⟨?_, ?_, ?_⟩
  · intro i hi hz
    unfold resolveExtents
    rw [if_neg hne, hmax]
    exact assignExpand_expand ms _ _ i hi hz
  · intro i hi hz
    unfold resolveExtents
    rw [if_neg hne, hmax]
    exact assignExpand_fixed ms _ _ i hi hz
  · unfold resolveExtents
    rw [if_neg hne, hmax, assignExpand_sum, if_neg hne]
    have he := Int.ediv_add_emod (c - ms.sum) ((ms.countP (fun m => m == 0) : Int))
    have hcomm : (c - ms.sum) / ((ms.countP (fun m => m == 0) : Int)) *
          ((ms.countP (fun m => m == 0) : Int)) =
        ((ms.countP (fun m => m == 0) : Int)) *
          ((c - ms.sum) / ((ms.countP (fun m => m == 0) : Int))) := mul_comm _ _
    linarith [he, hcomm]

theorem mainExtentsW_length (cs : List Widget) (k : Constraints) :
    (mainExtentsW cs k).length = cs.length := by
  unfold mainExtentsW
  rw [List.length_map, measureL_length]

theorem mainExtentsH_length (cs : List Widget) (k : Constraints) :
    (mainExtentsH cs k).length = cs.length := by
  unfold mainExtentsH
  rw [List.length_map, measureL_length]

/-- C1: in a Row (resp. Column) flex node with at least one expanding child
(zero-measured main extent) and fixed children totalling `W ≤ C` where `C` is
the resolved main extent, the arrange pass gives every expanding child
`(C−W)/N` units, the first expanding child additionally the division
remainder, keeps every fixed child at its measured extent, and the arranged
child extents sum to `C` exactly (so the expanding extents plus `W` equal
`C`). -/
theorem flex_distribution (r0 : Rect) (al : MainAxisAlignment)
    (cs ds : List Widget) (r : Rect)
    (hNw : 0 < expandCount (mainExtentsW cs ⟨r.w, r.h⟩))
    (hWw : (mainExtentsW cs ⟨r.w, r.h⟩).sum ≤ r.w)
    (hNh : 0 < expandCount (mainExtentsH ds ⟨r.w, r.h⟩))
    (hWh : (mainExtentsH ds ⟨r.w, r.h⟩).sum ≤ r.h) :
    (∀ i, i < cs.length → (mainExtentsW cs ⟨r.w, r.h⟩).getD i 1 = 0 →
        (childWidths (arrange (.row r0 al cs) r)).getD i 0 =
          (r.w - (mainExtentsW cs ⟨r.w, r.h⟩).sum) /
              (expandCount (mainExtentsW cs ⟨r.w, r.h⟩) : Int) +
            (if ((mainExtentsW cs ⟨r.w, r.h⟩).take i).countP (fun m => m == 0) = 0
             then (r.w - (mainExtentsW cs ⟨r.w, r.h⟩).sum) %
               (expandCount (mainExtentsW cs ⟨r.w, r.h⟩) : Int)
             else 0)) ∧
    (∀ i, i < cs.length → (mainExtentsW cs ⟨r.w, r.h⟩).getD i 1 ≠ 0 →
        (childWidths (arrange (.row r0 al cs) r)).getD i 0 =
          (mainExtentsW cs ⟨r.w, r.h⟩).getD i 1) ∧
    (childWidths (arrange (.row r0 al cs) r)).sum = r.w ∧
    (∀ i, i < ds.length → (mainExtentsH ds ⟨r.w, r.h⟩).getD i 1 = 0 →
        (childHeights (arrange (.column r0 al ds) r)).getD i 0 =
          (r.h - (mainExtentsH ds ⟨r.w, r.h⟩).sum) /
              (expandCount (mainExtentsH ds ⟨r.w, r.h⟩) : Int) +
            (if ((mainExtentsH ds ⟨r.w, r.h⟩).take i).countP (fun m => m == 0) = 0
             then (r.h - (mainExtentsH ds ⟨r.w, r.h⟩).sum) %
               (expandCount (mainExtentsH ds ⟨r.w, r.h⟩) : Int)
             else 0)) ∧
    (∀ i, i < ds.length → (mainExtentsH ds ⟨r.w, r.h⟩).getD i 1 ≠ 0 →
        (childHeights (arrange (.column r0 al ds) r)).getD i 0 =
          (mainExtentsH ds ⟨r.w, r.h⟩).getD i 1) ∧
    (childHeights (arrange (.column r0 al ds) r)).sum = r.h := by
  have hrow := resolveExtents_spec r.w (mainExtentsW cs ⟨r.w, r.h⟩) hNw hWw
  have hcol := resolveExtents_spec r.h (mainExtentsH ds ⟨r.w, r.h⟩) hNh hWh
  have hlw := mainExtentsW_length cs (⟨r.w, r.h⟩ : Constraints)
  have hlh := mainExtentsH_length ds (⟨r.w, r.h⟩ : Constraints)
  rw [row_child_widths, col_child_heights]
  refine ⟨?_, ?_, hrow.2.2, ?_, ?_, hcol.2.2⟩
  · intro i hi hz
    exact hrow.1 i (by omega) hz
  · intro i hi hz
    exact hrow.2.1 i (by omega) hz
  · intro i hi hz
    exact hcol.1 i (by omega) hz
  · intro i hi hz
    exact hcol.2.1 i (by omega) hz

/-- Witness for C1 at a concrete input: a Row of a fixed 10-wide child and two
expanding spacers in a 25-wide parent (shares 8 and 7), a Column of a fixed
6-tall child and one expanding spacer in a 20-tall parent. -/
theorem flex_distribution_witness :
    0 < expandCount (mainExtentsW
        [Widget.sizedBox zeroRect 10 5, Widget.sizedBox zeroRect 0 0,
          Widget.sizedBox zeroRect 0 0] ⟨25, 20⟩) ∧
    (mainExtentsW [Widget.sizedBox zeroRect 10 5, Widget.sizedBox zeroRect 0 0,
        Widget.sizedBox zeroRect 0 0] ⟨25, 20⟩).sum ≤ 25 ∧
    0 < expandCount (mainExtentsH
        [Widget.sizedBox zeroRect 0 6, Widget.sizedBox zeroRect 0 0] ⟨25, 20⟩) ∧
    (mainExtentsH [Widget.sizedBox zeroRect 0 6, Widget.sizedBox zeroRect 0 0]
        ⟨25, 20⟩).sum ≤ 20 ∧
    (childWidths (arrange
        (.row zeroRect .Start
          [Widget.sizedBox zeroRect 10 5, Widget.sizedBox zeroRect 0 0,
            Widget.sizedBox zeroRect 0 0]) ⟨0, 0, 25, 20⟩)).sum = 25 := by
  refine ⟨by decide, by decide, by decide, by decide, ?_⟩
  exact (flex_distribution zeroRect .Start
    [Widget.sizedBox zeroRect 10 5, Widget.sizedBox zeroRect 0 0,
      Widget.sizedBox zeroRect 0 0]
    [Widget.sizedBox zeroRect 0 6, Widget.sizedBox zeroRect 0 0]
    ⟨0, 0, 25, 20⟩ (by decide) (by decide) (by decide) (by decide)).2.2.1

/-- C5: `arrange` is idempotent — arranging an already-arranged tree with the
same Rect reproduces exactly the same tree, hence identical arranged
rectangles at every node. -/
theorem arrange_idempotent (w : Widget) (r : Rect) :
    arrange (arrange w r) r = arrange w r := arrange_arrange w r

theorem resolveExtents_noExpand (c : Int) (ms : List Int)
    (h : ms.countP (fun m => m == 0) = 0) : resolveExtents c ms = ms := by
  unfold resolveExtents
  rw [if_pos h]

theorem mainPositions_sb_degenerate (c : Int) (exts : List Int)
    (h : exts.length ≤ 1) :
    mainPositions .SpaceBetween c exts = mainPositions .Start c exts := by
  unfold mainPositions
  rw [if_pos h]

theorem rowRects_sb_degenerate (r : Rect) (ss : List Size) (h : ss.length ≤ 1) :
    rowRects .SpaceBetween r ss = rowRects .Start r ss := by
  unfold rowRects
  rw [mainPositions_sb_degenerate]
  rw [resolveExtents_length, List.length_map]
  exact h

theorem colRects_sb_degenerate (r : Rect) (ss : List Size) (h : ss.length ≤ 1) :
    colRects .SpaceBetween r ss = colRects .Start r ss := by
  unfold colRects
  rw [mainPositions_sb_degenerate]
  rw [resolveExtents_length, List.length_map]
  exact h

/-- C6: with alignment `SpaceBetween` and exactly two non-expanding children,
the first child is placed flush against the leading edge and the second flush
against the trailing edge of the resolved main-axis extent (all remaining
space forms the single inter-child gap); with at most one child the placement
coincides with the `Start` alignment.  Stated for Row (x/width) and Column
(y/height). -/
theorem spaceBetween_placement (r0 : Rect) (a b a2 b2 : Widget)
    (cs ds : List Widget) (r : Rect)
    (hwa : (measure a ⟨r.w, r.h⟩).w ≠ 0) (hwb : (measure b ⟨r.w, r.h⟩).w ≠ 0)
    (hha : (measure a2 ⟨r.w, r.h⟩).h ≠ 0) (hhb : (measure b2 ⟨r.w, r.h⟩).h ≠ 0)
    (hcs : cs.length ≤ 1) (hds : ds.length ≤ 1) :
    (childRects (arrange (.row r0 .SpaceBetween [a, b]) r)).map
        (fun t => (t.x, t.w)) =
      [(r.x, (measure a ⟨r.w, r.h⟩).w),
       (r.x + r.w - (measure b ⟨r.w, r.h⟩).w, (measure b ⟨r.w, r.h⟩).w)] ∧
    (childRects (arrange (.column r0 .SpaceBetween [a2, b2]) r)).map
        (fun t => (t.y, t.h)) =
      [(r.y, (measure a2 ⟨r.w, r.h⟩).h),
       (r.y + r.h - (measure b2 ⟨r.w, r.h⟩).h, (measure b2 ⟨r.w, r.h⟩).h)] ∧
    childRects (arrange (.row r0 .SpaceBetween cs) r) =
      childRects (arrange (.row r0 .Start cs) r) ∧
    childRects (arrange (.column r0 .SpaceBetween ds) r) =
      childRects (arrange (.column r0 .Start ds) r) := by
  refine ⟨?_, ?_, ?_, ?_⟩
  · have hcount : ((measureL [a, b] (⟨r.w, r.h⟩ : Constraints)).map Size.w).countP
        (fun m => m == 0) = 0 := by
      simp [measureL, List.countP_cons, hwa, hwb]
    simp only [arrange, childRects, List.map_map]
    have hlen : (rowRects .SpaceBetween r (measureL [a, b] ⟨r.w, r.h⟩)).length =
        ([a, b] : List Widget).length := by
      rw [rowRects_length, measureL_length]
    have hmap := arrangeL_map_rectOf [a, b]
      (rowRects .SpaceBetween r (measureL [a, b] ⟨r.w, r.h⟩)) hlen
    calc ((arrangeL [a, b] (rowRects .SpaceBetween r (measureL [a, b] ⟨r.w, r.h⟩))).map
            ((fun t => (t.x, t.w)) ∘ rectOf))
        = ((arrangeL [a, b] (rowRects .SpaceBetween r
            (measureL [a, b] ⟨r.w, r.h⟩))).map rectOf).map (fun t => (t.x, t.w)) := by
          rw [List.map_map]
      _ = (rowRects .SpaceBetween r (measureL [a, b] ⟨r.w, r.h⟩)).map
            (fun t => (t.x, t.w)) := by rw [hmap]
      _ = _ := by
          unfold rowRects
          rw [resolveExtents_noExpand _ _ hcount]
          simp only [measureL, measureO, List.map_cons, List.map_nil]
          simp only [mainPositions, List.length_cons, List.length_nil]
          norm_num [positionsFrom, mkRowRects, List.sum_cons]
          omega
  · have hcount : ((measureL [a2, b2] (⟨r.w, r.h⟩ : Constraints)).map Size.h).countP
        (fun m => m == 0) = 0 := by
      simp [measureL, List.countP_cons, hha, hhb]
    simp only [arrange, childRects, List.map_map]
    have hlen : (colRects .SpaceBetween r (measureL [a2, b2] ⟨r.w, r.h⟩)).length =
        ([a2, b2] : List Widget).length := by
      rw [colRects_length, measureL_length]
    have hmap := arrangeL_map_rectOf [a2, b2]
      (colRects .SpaceBetween r (measureL [a2, b2] ⟨r.w, r.h⟩)) hlen
    calc ((arrangeL [a2, b2] (colRects .SpaceBetween r (measureL [a2, b2] ⟨r.w, r.h⟩))).map
            ((fun t => (t.y, t.h)) ∘ rectOf))
        = ((arrangeL [a2, b2] (colRects .SpaceBetween r
            (measureL [a2, b2] ⟨r.w, r.h⟩))).map rectOf).map (fun t => (t.y, t.h)) := by
          rw [List.map_map]
      _ = (colRects .SpaceBetween r (measureL [a2, b2] ⟨r.w, r.h⟩)).map
            (fun t => (t.y, t.h)) := by rw [hmap]
      _ = _ := by
          unfold colRects
          rw [resolveExtents_noExpand _ _ hcount]
          simp only [measureL, measureO, List.map_cons, List.map_nil]
          simp only [mainPositions, List.length_cons, List.length_nil]
          norm_num [positionsFrom, mkColRects, List.sum_cons]
          omega
  · simp only [arrange, childRects]
    rw [rowRects_sb_degenerate]
    rw [measureL_length]
    exact hcs
  · simp only [arrange, childRects]
    rw [colRects_sb_degenerate]
    rw [measureL_length]
    exact hds

/-- Witness for C6 at a concrete input: two 10×10 and 20×20 boxes in a
100-wide, 40-tall parent, and a single-child degenerate case. -/
theorem spaceBetween_placement_witness :
    (childRects (arrange
        (.row zeroRect .SpaceBetween
          [Widget.sizedBox zeroRect 10 10, Widget.sizedBox zeroRect 20 20])
        ⟨0, 0, 100, 40⟩)).map (fun t => (t.x, t.w)) =
      [((0 : Int), (10 : Int)), (80, 20)] := by
  have h := (spaceBetween_placement zeroRect
    (Widget.sizedBox zeroRect 10 10) (Widget.sizedBox zeroRect 20 20)
    (Widget.sizedBox zeroRect 10 10) (Widget.sizedBox zeroRect 20 20)
    [Widget.sizedBox zeroRect 3 3] [] ⟨0, 0, 100, 40⟩
    (by decide) (by decide) (by decide) (by decide) (by decide) (by decide)).1
  simpa using h

theorem stateAt_zero (xs : List InputSample) : stateAt xs 0 = .Normal := rfl

theorem stateAt_succ (xs : List InputSample) (i : Nat) (hi : i < xs.length) :
    stateAt xs (i + 1) = stepState (stateAt xs i) (xs.getD i ⟨false, false⟩) := by
  unfold stateAt
  rw [List.take_succ, List.foldl_append]
  have hsome : xs[i]? = some xs[i] := List.getElem?_eq_getElem hi
  rw [hsome]
  simp [List.getD, hsome]

theorem stepState_pressed (s : ButtonState) (x : InputSample) :
    stepState s x = .Pressed ↔ (x.inside = true ∧ x.down = true) := by
  unfold stepState
  cases hin : x.inside <;> cases hd : x.down <;> simp

theorem fireAt_iff (xs : List InputSample) (t : Nat) :
    fireAt xs t = true ↔
      (t < xs.length ∧ stateAt xs t = .Pressed ∧
        (xs.getD t ⟨false, false⟩).inside = true ∧
        (xs.getD t ⟨false, false⟩).down = false) := by
  unfold fireAt firesOn
  cases hd : (xs.getD t ⟨false, false⟩).down <;>
    cases hin : (xs.getD t ⟨false, false⟩).inside <;>
      simp [Bool.and_eq_true, decide_eq_true_iff, beq_iff_eq]

/-- C2: for every sample sequence driving the machine from Normal, the click
signal fires exactly on the steps where the state is Pressed and the frame's
sample has the pointer inside with the button up; that step performs the
Pressed→Hovered transition (the firing is synchronous with it); a sample with
the pointer outside never fires; and any two firings are separated by a fresh
press (an intermediate pointer-inside button-down sample), so one continuous
press never fires twice. -/
theorem button_click_fires (xs : List InputSample) :
    (∀ t, fireAt xs t = true ↔
        (t < xs.length ∧ stateAt xs t = .Pressed ∧
          (xs.getD t ⟨false, false⟩).inside = true ∧
          (xs.getD t ⟨false, false⟩).down = false)) ∧
    (∀ t, (xs.getD t ⟨false, false⟩).inside = false → fireAt xs t = false) ∧
    (∀ t, fireAt xs t = true → stateAt xs (t + 1) = .Hovered) ∧
    (∀ i j, fireAt xs i = true → fireAt xs j = true → i < j →
      ∃ k, i < k ∧ k < j ∧ (xs.getD k ⟨false, false⟩).inside = true ∧
        (xs.getD k ⟨false, false⟩).down = true) := by
  have hchar := fireAt_iff xs
  refine ⟨hchar, ?_, ?_, ?_⟩
  · intro t ht
    cases hf : fireAt xs t with
    | false => rfl
    | true =>
        rcases (hchar t).mp hf with ⟨_, _, hin, _⟩
        rw [ht] at hin
        cases hin
  · intro t ht
    rcases (hchar t).mp ht with ⟨hlt, hp, hin, hd⟩
    rw [stateAt_succ xs t hlt, hp]
    unfold stepState
    simp only [List.getD, List.get?_eq_getElem?] at hin hd
    simp [hin, hd]
  · intro i j hfi hfj hij
    rcases (hchar j).mp hfj with ⟨hjl, hjp, _, _⟩
    rcases (hchar i).mp hfi with ⟨hil, hip, hiin, hid⟩
    have hj1 : 1 ≤ j := by
      rcases Nat.eq_zero_or_pos j with h0 | h1
      · rw [h0, stateAt_zero] at hjp
        cases hjp
      · exact h1
    have hprev : stateAt xs ((j - 1) + 1) = .Pressed := by
      have : (j - 1) + 1 = j := by omega
      rw [this]
      exact hjp
    have hjm1 : j - 1 < xs.length := by omega
    rw [stateAt_succ xs (j - 1) hjm1] at hprev
    rcases (stepState_pressed _ _).mp hprev with ⟨hin, hd⟩
    refine ⟨j - 1, ?_, by omega, hin, hd⟩
    rcases Nat.lt_or_ge i (j - 1) with h | h
    · exact h
    · exfalso
      have : i = j - 1 := by omega
      rw [this] at hid
      rw [hid] at hd
      cases hd

/-- Witness for C2 at a concrete input: press-release-press-release inside the
bounds; the release at step 1 leaves the machine Hovered, and the two firings
(steps 1 and 3) are separated by the fresh down sample at step 2. -/
theorem button_click_fires_witness :
    stateAt [⟨true, true⟩, ⟨true, false⟩, ⟨true, true⟩, ⟨true, false⟩] 2 =
        .Hovered ∧
    (∃ k, 1 < k ∧ k < 3 ∧
      (([⟨true, true⟩, ⟨true, false⟩, ⟨true, true⟩, ⟨true, false⟩] :
          List InputSample).getD k ⟨false, false⟩).inside = true ∧
      (([⟨true, true⟩, ⟨true, false⟩, ⟨true, true⟩, ⟨true, false⟩] :
          List InputSample).getD k ⟨false, false⟩).down = true) := by
  constructor
  · exact (button_click_fires
      [⟨true, true⟩, ⟨true, false⟩, ⟨true, true⟩, ⟨true, false⟩]).2.2.1
      1 (by decide)
  · exact (button_click_fires
      [⟨true, true⟩, ⟨true, false⟩, ⟨true, true⟩, ⟨true, false⟩]).2.2.2
      1 3 (by decide) (by decide) (by decide)

theorem addAll_roots (m : WidgetManager) (ws : List Widget) :
    (addAll m ws).roots = m.roots ++ ws := by
  induction ws generalizing m with
  | nil => simp [addAll]
  | cons w ws ih =>
      unfold addAll at ih ⊢
      rw [List.foldl_cons, ih]
      simp [addWidget]

theorem reachable_iff (m : WidgetManager) (v : Widget) :
    reachable m v ↔ ∃ rt ∈ m.roots, v ∈ subnodes rt := by
  unfold reachable renderOrder
  simp [List.mem_flatten, List.mem_map]

theorem hitOrder_mem (m : WidgetManager) (v : Widget) :
    v ∈ hitOrder m ↔ reachable m v := by
  unfold hitOrder reachable
  exact List.mem_reverse

/-- C3: after `clear()` followed by adding new roots, the manager's root list
is exactly the newly added roots in insertion order, a widget is reachable by
the render traversal (equivalently the hit-test traversal) iff it lies in one
of the new roots' subtrees, and any old root not contained in a new subtree
is unreachable by both traversals. -/
theorem clear_then_add (m : WidgetManager) (ws : List Widget) (old : Widget)
    (_hmem : old ∈ m.roots) (hold : ∀ rt ∈ ws, old ∉ subnodes rt) :
    (addAll m.clear ws).roots = ws ∧
    (∀ v, reachable (addAll m.clear ws) v ↔ ∃ rt ∈ ws, v ∈ subnodes rt) ∧
    (∀ v, v ∈ hitOrder (addAll m.clear ws) ↔ ∃ rt ∈ ws, v ∈ subnodes rt) ∧
    ¬ reachable (addAll m.clear ws) old ∧
    old ∉ hitOrder (addAll m.clear ws) := by
  have hroots : (addAll m.clear ws).roots = ws := by
    rw [addAll_roots]
    rfl
  have hreach : ∀ v, reachable (addAll m.clear ws) v ↔ ∃ rt ∈ ws, v ∈ subnodes rt := by
    intro v
    rw [reachable_iff, hroots]
  have hnot : ¬ reachable (addAll m.clear ws) old := by
    rw [hreach old]
    rintro ⟨rt, hrt, hv⟩
    exact hold rt hrt hv
  refine ⟨hroots, hreach, ?_, hnot, ?_⟩
  · intro v
    rw [hitOrder_mem, hreach v]
  · rw [hitOrder_mem]
    exact hnot

/-- Witness for C3 at a concrete input: a manager holding one text root is
cleared and repopulated with one spacer root; the old text root is
unreachable. -/
theorem clear_then_add_witness :
    (Widget.text zeroRect ⟨0, 0⟩ "OLD" 1 0) ∈
        (⟨[Widget.text zeroRect ⟨0, 0⟩ "OLD" 1 0]⟩ : WidgetManager).roots ∧
    ¬ reachable (addAll (⟨[Widget.text zeroRect ⟨0, 0⟩ "OLD" 1 0]⟩ :
        WidgetManager).clear [Widget.sizedBox zeroRect 1 2])
      (Widget.text zeroRect ⟨0, 0⟩ "OLD" 1 0) := by
  refine ⟨by simp, ?_⟩
  exact (clear_then_add ⟨[Widget.text zeroRect ⟨0, 0⟩ "OLD" 1 0]⟩
    [Widget.sizedBox zeroRect 1 2] (Widget.text zeroRect ⟨0, 0⟩ "OLD" 1 0)
    (by simp) (by simp [subnodes])).2.2.2.1

/-- C4: a Padding node's measured size on each axis is the child's measured
size under the inset-reduced constraint region plus twice the inset, and
arranging the Padding at a rect with origin `(r.x, r.y)` places its child at
origin `(r.x + P, r.y + P)` with the region shrunk by the total inset. -/
theorem padding_measure_arrange (r0 : Rect) (P : Int) (c : Widget)
    (k : Constraints) (r : Rect) (hP : 0 ≤ P) :
    (measure (.padding r0 P (some c)) k).w =
      (measure c ⟨k.maxW - 2 * P, k.maxH - 2 * P⟩).w + 2 * P ∧
    (measure (.padding r0 P (some c)) k).h =
      (measure c ⟨k.maxW - 2 * P, k.maxH - 2 * P⟩).h + 2 * P ∧
    childRects (arrange (.padding r0 P (some c)) r) =
      [⟨r.x + P, r.y + P, max 0 (r.w - 2 * P), max 0 (r.h - 2 * P)⟩] := by
  have hm : max 0 P = P := max_eq_right hP
  refine ⟨?_, ?_, ?_⟩
  · simp [measure, hm]
  · simp [measure, hm]
  · simp [arrange, arrangeO, childRects, rectOf_arrange, padRect, hm]

/-- Witness for C4 at a concrete input: inset 5 around a 10×10 box. -/
theorem padding_measure_arrange_witness :
    (0 : Int) ≤ 5 ∧
    (measure (.padding zeroRect 5 (some (Widget.sizedBox zeroRect 10 10)))
        ⟨100, 80⟩).w =
      (measure (Widget.sizedBox zeroRect 10 10) ⟨100 - 2 * 5, 80 - 2 * 5⟩).w
        + 2 * 5 := by
  refine ⟨by decide, ?_⟩
  exact (padding_measure_arrange zeroRect 5 (Widget.sizedBox zeroRect 10 10)
    ⟨100, 80⟩ ⟨0, 0, 40, 40⟩ (by decide)).1

theorem trigger_connectAll (b : Button) (cbs : List Nat) :
    (connectAll b cbs).trigger = b.onClick.callbacks ++ cbs := by
  induction cbs generalizing b with
  | nil => simp [connectAll, Button.trigger, Signal.emit]
  | cons c cbs ih =>
      unfold connectAll at ih ⊢
      rw [List.foldl_cons, ih]
      simp [Button.connect, Signal.connect]

/-- C7: connecting a sequence of callbacks to a button's click signal and
triggering it invokes exactly the connected callbacks, in connection order,
each exactly once per trigger. -/
theorem signal_invocation_order (b : Button) (cbs : List Nat)
    (h : b.onClick.callbacks = []) :
    (connectAll b cbs).trigger = cbs ∧
    (∀ cb, ((connectAll b cbs).trigger).count cb = cbs.count cb) := by
  have ht := trigger_connectAll b cbs
  rw [h, List.nil_append] at ht
  exact ⟨ht, fun cb => by rw [ht]⟩

/-- Witness for C7 at a concrete input: three callbacks connected to a fresh
button fire as `[1, 2, 3]`. -/
theorem signal_invocation_order_witness :
    (connectAll ⟨⟨0, 0, 10, 10, 0, 0, 0, "B", 1, 0⟩, .Normal, ⟨[]⟩⟩
      [1, 2, 3]).trigger = [1, 2, 3] :=
  (signal_invocation_order ⟨⟨0, 0, 10, 10, 0, 0, 0, "B", 1, 0⟩, .Normal, ⟨[]⟩⟩
    [1, 2, 3] rfl).1

theorem assignExpand_nonneg (ms : List Int) (q r : Int)
    (h : ∀ m ∈ ms, 0 ≤ m) (hq : 0 ≤ q) (hr : 0 ≤ r) :
    ∀ e ∈ assignExpand ms q r, 0 ≤ e := by
  match ms with
  | [] => intro e he; simp [assignExpand] at he
  | m :: ms =>
      intro e he
      simp only [assignExpand] at he
      split at he
      · rcases List.mem_cons.mp he with h0 | h0
        · subst h0; omega
        · exact assignExpand_nonneg ms q 0
            (fun x hx => h x (List.mem_cons_of_mem m hx)) hq le_rfl e h0
      · rcases List.mem_cons.mp he with h0 | h0
        · rw [h0]; exact h m (List.mem_cons_self m ms)
        · exact assignExpand_nonneg ms q r
            (fun x hx => h x (List.mem_cons_of_mem m hx)) hq hr e h0

theorem resolveExtents_nonneg (c : Int) (ms : List Int)
    (h : ∀ m ∈ ms, 0 ≤ m) : ∀ e ∈ resolveExtents c ms, 0 ≤ e := by
  unfold resolveExtents
  split
  · exact h
  · rename_i hne
    apply assignExpand_nonneg ms _ _ h
    · exact Int.ediv_nonneg (le_max_left 0 _) (Int.natCast_nonneg _)
    · apply Int.emod_nonneg
      exact_mod_cast hne

theorem crossFor_nonneg (pc m : Int) (hpc : 0 ≤ pc) (hm : 0 ≤ m) :
    0 ≤ crossFor pc m := by
  unfold crossFor
  split
  · exact hpc
  · exact le_min hm hpc

theorem mkRowRects_nonneg (r : Rect) (xs es : List Int) (ss : List Size)
    (hes : ∀ e ∈ es, 0 ≤ e) (hh : 0 ≤ r.h) (hss : ∀ s ∈ ss, 0 ≤ s.h) :
    ∀ rc ∈ mkRowRects r xs es ss, 0 ≤ rc.w ∧ 0 ≤ rc.h := by
  induction xs generalizing es ss with
  | nil => intro rc hrc; simp [mkRowRects] at hrc
  | cons x xs ih =>
      intro rc hrc
      match es, ss with
      | [], _ => simp [mkRowRects] at hrc
      | _ :: _, [] => simp [mkRowRects] at hrc
      | e :: es, s :: ss =>
          simp only [mkRowRects] at hrc
          rcases List.mem_cons.mp hrc with h0 | h0
          · subst h0
            exact ⟨hes e (List.mem_cons_self e es),
              crossFor_nonneg r.h s.h hh (hss s (List.mem_cons_self s ss))⟩
          · exact ih es ss (fun y hy => hes y (List.mem_cons_of_mem e hy))
              (fun y hy => hss y (List.mem_cons_of_mem s hy)) rc h0

theorem mkColRects_nonneg (r : Rect) (ys es : List Int) (ss : List Size)
    (hes : ∀ e ∈ es, 0 ≤ e) (hw : 0 ≤ r.w) (hss : ∀ s ∈ ss, 0 ≤ s.w) :
    ∀ rc ∈ mkColRects r ys es ss, 0 ≤ rc.w ∧ 0 ≤ rc.h := by
  induction ys generalizing es ss with
  | nil => intro rc hrc; simp [mkColRects] at hrc
  | cons y ys ih =>
      intro rc hrc
      match es, ss with
      | [], _ => simp [mkColRects] at hrc
      | _ :: _, [] => simp [mkColRects] at hrc
      | e :: es, s :: ss =>
          simp only [mkColRects] at hrc
          rcases List.mem_cons.mp hrc with h0 | h0
          · subst h0
            exact ⟨crossFor_nonneg r.w s.w hw (hss s (List.mem_cons_self s ss)),
              hes e (List.mem_cons_self e es)⟩
          · exact ih es ss (fun z hz => hes z (List.mem_cons_of_mem e hz))
              (fun z hz => hss z (List.mem_cons_of_mem s hz)) rc h0

theorem rowRects_nonneg (al : MainAxisAlignment) (r : Rect) (ss : List Size)
    (hh : 0 ≤ r.h) (hss : ∀ s ∈ ss, 0 ≤ s.w ∧ 0 ≤ s.h) :
    ∀ rc ∈ rowRects al r ss, 0 ≤ rc.w ∧ 0 ≤ rc.h := by
  unfold rowRects
  apply mkRowRects_nonneg
  · apply resolveExtents_nonneg
    intro x hx
    rcases List.mem_map.mp hx with ⟨s, hs, rfl⟩
    exact (hss s hs).1
  · exact hh
  · intro s hs
    exact (hss s hs).2

theorem colRects_nonneg (al : MainAxisAlignment) (r : Rect) (ss : List Size)
    (hw : 0 ≤ r.w) (hss : ∀ s ∈ ss, 0 ≤ s.w ∧ 0 ≤ s.h) :
    ∀ rc ∈ colRects al r ss, 0 ≤ rc.w ∧ 0 ≤ rc.h := by
  unfold colRects
  apply mkColRects_nonneg
  · apply resolveExtents_nonneg
    intro x hx
    rcases List.mem_map.mp hx with ⟨s, hs, rfl⟩
    exact (hss s hs).2
  · exact hw
  · intro s hs
    exact (hss s hs).1

theorem containerChildRect_nonneg (ctr : Bool) (r : Rect) (m : Size)
    (hw : 0 ≤ r.w) (hh : 0 ≤ r.h) (hmw : 0 ≤ m.w) (hmh : 0 ≤ m.h) :
    0 ≤ (containerChildRect ctr r m).w ∧ 0 ≤ (containerChildRect ctr r m).h := by
  unfold containerChildRect centeredIn
  split
  · exact ⟨hmw, hmh⟩
  · exact ⟨hw, hh⟩

theorem padRect_nonneg (inset : Int) (r : Rect) :
    0 ≤ (padRect inset r).w ∧ 0 ≤ (padRect inset r).h := by
  unfold padRect
  exact ⟨le_max_left 0 _, le_max_left 0 _⟩

mutual

theorem arrange_ok (w : Widget) (r : Rect) (hw : 0 ≤ r.w) (hh : 0 ≤ r.h) :
    sizesOk (arrange w r) = true := by
  cases w with
  | container r0 color dw dh ctr child =>
      have hm := measureO_nn child (⟨r.w, r.h⟩ : Constraints)
      have hcr := containerChildRect_nonneg ctr r (measureO child ⟨r.w, r.h⟩)
        hw hh hm.1 hm.2
      simp only [arrange, sizesOk, Bool.and_eq_true, decide_eq_true_iff]
      exact ⟨⟨hw, hh⟩, arrangeO_ok child _ hcr.1 hcr.2⟩
  | row r0 al cs =>
      have hss := measureL_nn cs (⟨r.w, r.h⟩ : Constraints)
      simp only [arrange, sizesOk, Bool.and_eq_true, decide_eq_true_iff]
      exact ⟨⟨hw, hh⟩, arrangeL_ok cs _ (rowRects_nonneg al r _ hh hss)⟩
  | column r0 al cs =>
      have hss := measureL_nn cs (⟨r.w, r.h⟩ : Constraints)
      simp only [arrange, sizesOk, Bool.and_eq_true, decide_eq_true_iff]
      exact ⟨⟨hw, hh⟩, arrangeL_ok cs _ (colRects_nonneg al r _ hw hss)⟩
  | padding r0 inset child =>
      have hcr := padRect_nonneg inset r
      simp only [arrange, sizesOk, Bool.and_eq_true, decide_eq_true_iff]
      exact ⟨⟨hw, hh⟩, arrangeO_ok child _ hcr.1 hcr.2⟩
  | center r0 child =>
      have hm := measureO_nn child (⟨r.w, r.h⟩ : Constraints)
      simp only [arrange, sizesOk, Bool.and_eq_true, decide_eq_true_iff]
      exact ⟨⟨hw, hh⟩, arrangeO_ok child _ hm.1 hm.2⟩
  | sizedBox r0 dw dh =>
      simp only [arrange, sizesOk, Bool.and_eq_true, decide_eq_true_iff]
      exact ⟨hw, hh⟩
  | text r0 o s sc col =>
      simp only [arrange, sizesOk, Bool.and_eq_true, decide_eq_true_iff]
      exact ⟨hw, hh⟩
  | button r0 cfg =>
      simp only [arrange, sizesOk, Bool.and_eq_true, decide_eq_true_iff]
      exact ⟨hw, hh⟩

theorem arrangeL_ok (cs : List Widget) (rs : List Rect)
    (h : ∀ rc ∈ rs, 0 ≤ rc.w ∧ 0 ≤ rc.h) : sizesOkL (arrangeL cs rs) = true := by
  match cs, rs with
  | [], _ => rfl
  | c :: cs, [] =>
      simp only [arrangeL, sizesOkL, Bool.and_eq_true]
      exact ⟨arrange_ok c zeroRect le_rfl le_rfl,
        arrangeL_ok cs [] (fun rc hrc => by simp at hrc)⟩
  | c :: cs, rc :: rs =>
      simp only [arrangeL, sizesOkL, Bool.and_eq_true]
      have hrc := h rc (List.mem_cons_self rc rs)
      exact ⟨arrange_ok c rc hrc.1 hrc.2,
        arrangeL_ok cs rs (fun y hy => h y (List.mem_cons_of_mem rc hy))⟩

theorem arrangeO_ok (c : Option Widget) (r : Rect) (hw : 0 ≤ r.w) (hh : 0 ≤ r.h) :
    sizesOkO (arrangeO c r) = true := by
  cases c with
  | none => rfl
  | some c => exact arrange_ok c r hw hh

end

theorem row_expand_zero_extent (r0 : Rect) (al : MainAxisAlignment)
    (cs : List Widget) (r : Rect)
    (hneg : r.w < (mainExtentsW cs ⟨r.w, r.h⟩).sum) :
    ∀ i, i < cs.length → (mainExtentsW cs ⟨r.w, r.h⟩).getD i 1 = 0 →
      (childWidths (arrange (.row r0 al cs) r)).getD i 0 = 0 := by
  intro i hi hz
  rw [row_child_widths]
  have hlen : i < (mainExtentsW cs (⟨r.w, r.h⟩ : Constraints)).length := by
    rwa [mainExtentsW_length]
  have hmem : (mainExtentsW cs (⟨r.w, r.h⟩ : Constraints)).getD i 1 ∈
      mainExtentsW cs (⟨r.w, r.h⟩ : Constraints) := by
    rw [List.getD_eq_getElem?_getD, List.getElem?_eq_getElem hlen]
    simp
  have hcount : (mainExtentsW cs ⟨r.w, r.h⟩).countP (fun m => m == 0) ≠ 0 := by
    intro h0
    have := List.countP_eq_zero.mp h0 _ hmem
    rw [hz] at this
    simp at this
  have hmax : max 0 (r.w - (mainExtentsW cs ⟨r.w, r.h⟩).sum) = 0 :=
    max_eq_left (by omega)
  unfold resolveExtents
  rw [if_neg hcount, hmax]
  rw [assignExpand_expand _ _ _ i (by rwa [mainExtentsW_length]) hz]
  simp [Int.zero_ediv, Int.zero_emod]

theorem col_expand_zero_extent (r0 : Rect) (al : MainAxisAlignment)
    (cs : List Widget) (r : Rect)
    (hneg : r.h < (mainExtentsH cs ⟨r.w, r.h⟩).sum) :
    ∀ i, i < cs.length → (mainExtentsH cs ⟨r.w, r.h⟩).getD i 1 = 0 →
      (childHeights (arrange (.column r0 al cs) r)).getD i 0 = 0 := by
  intro i hi hz
  rw [col_child_heights]
  have hlen : i < (mainExtentsH cs (⟨r.w, r.h⟩ : Constraints)).length := by
    rwa [mainExtentsH_length]
  have hmem : (mainExtentsH cs (⟨r.w, r.h⟩ : Constraints)).getD i 1 ∈
      mainExtentsH cs (⟨r.w, r.h⟩ : Constraints) := by
    rw [List.getD_eq_getElem?_getD, List.getElem?_eq_getElem hlen]
    simp
  have hcount : (mainExtentsH cs ⟨r.w, r.h⟩).countP (fun m => m == 0) ≠ 0 := by
    intro h0
    have := List.countP_eq_zero.mp h0 _ hmem
    rw [hz] at this
    simp at this
  have hmax : max 0 (r.h - (mainExtentsH cs ⟨r.w, r.h⟩).sum) = 0 :=
    max_eq_left (by omega)
  unfold resolveExtents
  rw [if_neg hcount, hmax]
  rw [assignExpand_expand _ _ _ i (by rwa [mainExtentsH_length]) hz]
  simp [Int.zero_ediv, Int.zero_emod]

/-- C8: layout never produces an error on malformed input — a Padding or
Container missing its structurally expected child measures to zero size and,
arranged by a measurement-respecting parent, is assigned a zero-size
rectangle; a Row or Column flex node facing negative available main-axis
space gives its expanding children zero extent; and arranging any tree into a
rect of non-negative size yields only rects of non-negative width and height
(no negative-sized rect ever reaches the rasterizer adapter). -/
theorem graceful_degradation (r0 r1 : Rect) (p : Int) (k : Constraints)
    (col : Nat) (b : Bool) (al al2 : MainAxisAlignment) (cs ds : List Widget)
    (r rr : Rect) (w : Widget) (r2 : Rect)
    (hnegW : r.w < (mainExtentsW cs ⟨r.w, r.h⟩).sum)
    (hnegH : rr.h < (mainExtentsH ds ⟨rr.w, rr.h⟩).sum)
    (hw : 0 ≤ r2.w) (hh : 0 ≤ r2.h) :
    measure (.padding r0 p none) k = ⟨0, 0⟩ ∧
    measure (.container r0 col 0 0 b none) k = ⟨0, 0⟩ ∧
    childRects (arrange (.center r1 (some (.padding r0 p none))) r2) =
      [⟨r2.x + r2.w / 2, r2.y + r2.h / 2, 0, 0⟩] ∧
    childRects (arrange (.center r1 (some (.container r0 col 0 0 b none))) r2) =
      [⟨r2.x + r2.w / 2, r2.y + r2.h / 2, 0, 0⟩] ∧
    (∀ i, i < cs.length → (mainExtentsW cs ⟨r.w, r.h⟩).getD i 1 = 0 →
        (childWidths (arrange (.row r0 al cs) r)).getD i 0 = 0) ∧
    (∀ i, i < ds.length → (mainExtentsH ds ⟨rr.w, rr.h⟩).getD i 1 = 0 →
        (childHeights (arrange (.column r0 al2 ds) rr)).getD i 0 = 0) ∧
    sizesOk (arrange w r2) = true := by
  refine ⟨rfl, by simp [measure, measureO], ?_, ?_,
    row_expand_zero_extent r0 al cs r hnegW,
    col_expand_zero_extent r0 al2 ds rr hnegH,
    arrange_ok w r2 hw hh⟩
  · simp [arrange, arrangeO, childRects, rectOf, centeredIn, measureO, measure]
  · simp [arrange, arrangeO, childRects, rectOf, centeredIn, measureO, measure]

/-- Witness for C8 at a concrete input: a row (resp. column) whose fixed
child of main extent 10 overflows a 5-unit parent leaves the expanding spacer
at zero extent, a childless padding centered in a 8×6 parent is arranged to a
zero-size rect, and an inset-3 padding arranged into a 2×2 rect stays
non-negative. -/
theorem graceful_degradation_witness :
    ((5 : Int) < (mainExtentsW
        [Widget.sizedBox zeroRect 10 10, Widget.sizedBox zeroRect 0 0]
        ⟨5, 5⟩).sum) ∧
    ((5 : Int) < (mainExtentsH
        [Widget.sizedBox zeroRect 0 10, Widget.sizedBox zeroRect 0 0]
        ⟨5, 5⟩).sum) ∧
    childRects (arrange (.center zeroRect (some (.padding zeroRect 4 none)))
        ⟨0, 0, 8, 6⟩) = [⟨4, 3, 0, 0⟩] ∧
    (childWidths (arrange
        (.row zeroRect .Start
          [Widget.sizedBox zeroRect 10 10, Widget.sizedBox zeroRect 0 0])
        ⟨0, 0, 5, 5⟩)).getD 1 0 = 0 ∧
    (childHeights (arrange
        (.column zeroRect .Start
          [Widget.sizedBox zeroRect 0 10, Widget.sizedBox zeroRect 0 0])
        ⟨0, 0, 5, 5⟩)).getD 1 0 = 0 ∧
    sizesOk (arrange
        (.padding zeroRect 3 (some (Widget.sizedBox zeroRect 9 9)))
        ⟨0, 0, 2, 2⟩) = true := by
  have h := graceful_degradation zeroRect zeroRect 4 ⟨0, 0⟩ 0 false .Start .Start
    [Widget.sizedBox zeroRect 10 10, Widget.sizedBox zeroRect 0 0]
    [Widget.sizedBox zeroRect 0 10, Widget.sizedBox zeroRect 0 0]
    ⟨0, 0, 5, 5⟩ ⟨0, 0, 5, 5⟩
    (Widget.padding zeroRect 3 (some (Widget.sizedBox zeroRect 9 9)))
    ⟨0, 0, 2, 2⟩ (by decide) (by decide) (by decide) (by decide)
  have h2 := graceful_degradation zeroRect zeroRect 4 ⟨0, 0⟩ 0 false .Start .Start
    [Widget.sizedBox zeroRect 10 10, Widget.sizedBox zeroRect 0 0]
    [Widget.sizedBox zeroRect 0 10, Widget.sizedBox zeroRect 0 0]
    ⟨0, 0, 5, 5⟩ ⟨0, 0, 5, 5⟩ (Widget.sizedBox zeroRect 1 1)
    ⟨0, 0, 8, 6⟩ (by decide) (by decide) (by decide) (by decide)
  refine ⟨by decide, by decide, ?_, ?_, ?_, ?_⟩
  · exact h2.2.2.1
  · exact h.2.2.2.2.1 1 (by decide) (by decide)
  · exact h.2.2.2.2.2.1 1 (by decide) (by decide)
  · exact h.2.2.2.2.2.2

/-- C9: every factory call with the trailing registration flag true registers
the constructed widget as a root with the widget tree manager (appended in
insertion order) as a side effect of construction; with the flag false the
manager is untouched, so the constructed widget is reachable by render and
hit-test only through a previously registered ancestor's subtree. -/
theorem factory_registration (m : WidgetManager) (p : Point) (s : String)
    (scale : Int) (color colN : Nat) (cfg : ButtonConfig) (x y w h : Int)
    (child : Option Widget) (c1 : Widget) (cs : List Widget)
    (al : MainAxisAlignment) (inset bw bh : Int) (v : Widget) :
    (Text m p s scale color true).1.roots =
        m.roots ++ [(Text m p s scale color true).2] ∧
    (ButtonW m cfg true).1.roots = m.roots ++ [(ButtonW m cfg true).2] ∧
    (Container m colN x y w h child true).1.roots =
        m.roots ++ [(Container m colN x y w h child true).2] ∧
    (Row m cs true al).1.roots = m.roots ++ [(Row m cs true al).2] ∧
    (Column m cs true al).1.roots = m.roots ++ [(Column m cs true al).2] ∧
    (Padding m c1 inset true).1.roots = m.roots ++ [(Padding m c1 inset true).2] ∧
    (Center m c1 true).1.roots = m.roots ++ [(Center m c1 true).2] ∧
    (SizedBox m bw bh true).1.roots = m.roots ++ [(SizedBox m bw bh true).2] ∧
    (Text m p s scale color false).1 = m ∧
    (ButtonW m cfg false).1 = m ∧
    (Container m colN x y w h child false).1 = m ∧
    (Row m cs false al).1 = m ∧
    (Column m cs false al).1 = m ∧
    (Padding m c1 inset false).1 = m ∧
    (Center m c1 false).1 = m ∧
    (SizedBox m bw bh false).1 = m ∧
    (reachable (Text m p s scale color false).1 v ↔
      ∃ rt ∈ m.roots, v ∈ subnodes rt) :=
  ⟨rfl, rfl, rfl, rfl, rfl, rfl, rfl, rfl, rfl, rfl, rfl, rfl, rfl, rfl, rfl,
   rfl, reachable_iff m v⟩

theorem foldl_ctx_preserve {β : Type} (f : FernContext → β → FernContext)
    (hf : ∀ a b, (f a b).width = a.width ∧ (f a b).height = a.height ∧
        (f a b).buffer.length = a.buffer.length)
    (l : List β) (a : FernContext) :
    (l.foldl f a).width = a.width ∧ (l.foldl f a).height = a.height ∧
      (l.foldl f a).buffer.length = a.buffer.length := by
  induction l generalizing a with
  | nil => exact ⟨rfl, rfl, rfl⟩
  | cons b l ih =>
      rw [List.foldl_cons]
      have h1 := hf a b
      have h2 := ih (f a b)
      exact ⟨h2.1.trans h1.1, h2.2.1.trans h1.2.1, h2.2.2.trans h1.2.2⟩

theorem setPixel_preserve (c : FernContext) (x y col : Nat) :
    (setPixel c x y col).width = c.width ∧ (setPixel c x y col).height = c.height ∧
      (setPixel c x y col).buffer.length = c.buffer.length := by
  unfold setPixel
  split
  · exact ⟨rfl, rfl, List.length_set c.buffer _ _⟩
  · exact ⟨rfl, rfl, rfl⟩

theorem fillRect_preserve (c : FernContext) (r : Rect) (col : Nat) :
    (fillRect c r col).width = c.width ∧ (fillRect c r col).height = c.height ∧
      (fillRect c r col).buffer.length = c.buffer.length := by
  unfold fillRect
  apply foldl_ctx_preserve
  intro a y
  apply foldl_ctx_preserve
  intro a2 x
  split
  · exact setPixel_preserve a2 x y col
  · exact ⟨rfl, rfl, rfl⟩

mutual

theorem render_preserve (ctx : FernContext) (w : Widget) :
    (render ctx w).width = ctx.width ∧ (render ctx w).height = ctx.height ∧
      (render ctx w).buffer.length = ctx.buffer.length := by
  cases w with
  | container r color dw dh ctr child =>
      have h1 := fillRect_preserve ctx r color
      have h2 := renderO_preserve (fillRect ctx r color) child
      exact ⟨h2.1.trans h1.1, h2.2.1.trans h1.2.1, h2.2.2.trans h1.2.2⟩
  | row r al cs => exact renderL_preserve ctx cs
  | column r al cs => exact renderL_preserve ctx cs
  | padding r inset child => exact renderO_preserve ctx child
  | center r child => exact renderO_preserve ctx child
  | sizedBox r dw dh => exact ⟨rfl, rfl, rfl⟩
  | text r o s sc color => exact fillRect_preserve ctx r color
  | button r cfg => exact fillRect_preserve ctx r cfg.normalColor

theorem renderL_preserve (ctx : FernContext) (cs : List Widget) :
    (renderL ctx cs).width = ctx.width ∧ (renderL ctx cs).height = ctx.height ∧
      (renderL ctx cs).buffer.length = ctx.buffer.length := by
  match cs with
  | [] => exact ⟨rfl, rfl, rfl⟩
  | c :: cs =>
      have h1 := render_preserve ctx c
      have h2 := renderL_preserve (render ctx c) cs
      exact ⟨h2.1.trans h1.1, h2.2.1.trans h1.2.1, h2.2.2.trans h1.2.2⟩

theorem renderO_preserve (ctx : FernContext) (c : Option Widget) :
    (renderO ctx c).width = ctx.width ∧ (renderO ctx c).height = ctx.height ∧
      (renderO ctx c).buffer.length = ctx.buffer.length := by
  cases c with
  | none => exact ⟨rfl, rfl, rfl⟩
  | some c => exact render_preserve ctx c

end

/-- C10: after `initialize(buffer, w, h)` the engine reports `getWidth() = w`
and `getHeight() = h` and adopts exactly the caller's buffer; rendering any
widget or any manager forest writes only within that buffer (its length and
the reported dimensions are preserved — every pixel write is clipped against
the buffer bounds); the zero-argument overload establishes the
platform-chosen dimensions, reported consistently, with a matching `w*h`
buffer. -/
theorem initialize_reports (buf : List Nat) (w h pw ph : Nat) (wd : Widget)
    (m : WidgetManager) :
    getWidth (initializeWith buf w h) = w ∧
    getHeight (initializeWith buf w h) = h ∧
    (initializeWith buf w h).buffer = buf ∧
    getWidth (initializeAuto pw ph) = pw ∧
    getHeight (initializeAuto pw ph) = ph ∧
    (initializeAuto pw ph).buffer.length = pw * ph ∧
    (render (initializeWith buf w h) wd).width = w ∧
    (render (initializeWith buf w h) wd).height = h ∧
    (render (initializeWith buf w h) wd).buffer.length = buf.length ∧
    (renderRoots (initializeWith buf w h) m).width = w ∧
    (renderRoots (initializeWith buf w h) m).height = h ∧
    (renderRoots (initializeWith buf w h) m).buffer.length = buf.length := by
  have hr := render_preserve (initializeWith buf w h) wd
  have hm := foldl_ctx_preserve render render_preserve m.roots (initializeWith buf w h)
  exact ⟨rfl, rfl, rfl, rfl, rfl, List.length_replicate _ _,
    hr.1, hr.2.1, hr.2.2, hm.1, hm.2.1, hm.2.2⟩

end Fern
